import Mathlib

/-!
Shallow embedding of `src/puzzle.c`: a backtracking search that tries to tile
the 4x7 board with the 7 tetromino pieces.  Pure fragments of the C code become
Lean functions on `Nat` (machine `uint32_t` arithmetic is `Nat` with an
explicit `% 2^32` where a shift could overflow); the in-place mutation of the
`pieces_available[]` array inside `recurse` is modelled by threading the array
value through every call and returning the final array alongside the list of
reported solutions.
-/

set_option maxRecDepth 100000

/-- Board width, `#define W 4` in the source. -/
def W : Nat := 4

/-- Board height, `#define H 7` in the source. -/
def H : Nat := 7

/-- Number of pieces, `#define NUM_PIECES 7` in the source. -/
def NUM_PIECES : Nat := 7

/-- One entry of `piece_definition[]`: a row-major character grid (`def` in C,
here `defStr` since `def` is a keyword) with its height and width. -/
structure piece_def where
  defStr : List Char
  h : Nat
  w : Nat
deriving DecidableEq

/-- The static table `piece_definition[NUM_PIECES]` from the source. -/
def piece_definition : List piece_def :=
  [⟨"####".data, 1, 4⟩,
   ⟨("##" ++ "##").data, 2, 2⟩,
   ⟨("## " ++ " ##").data, 2, 3⟩,
   ⟨(" ##" ++ "## ").data, 2, 3⟩,
   ⟨("###" ++ "#  ").data, 2, 3⟩,
   ⟨("###" ++ "  #").data, 2, 3⟩,
   ⟨(" # " ++ "###").data, 2, 3⟩]

/-- One orientation of a piece: entry `j` of the parallel arrays
`masks[j]`, `w[j]`, `h[j]` of `struct piece_orientations`. -/
structure Orient where
  mask : Nat
  w : Nat
  h : Nat
deriving DecidableEq

/-- `struct piece_orientations`: the distinct orientations of one piece.  The
C struct stores a count `n` and arrays of size 8 filled up to `n`; here the
list holds exactly those `n` filled entries, so `n = orients.length`. -/
structure piece_orientations where
  orients : List Orient
deriving DecidableEq

/-- Mask computation from the definition string: the first loop of
`calc_pieces_available` (`mask |= 1 << (x+W*y)` for non-blank cells). -/
def pieceMask (d : List Char) (w h : Nat) : Nat :=
  (List.range h).foldl
    (fun m y =>
      (List.range w).foldl
        (fun m x => if d.getD (x + w * y) ' ' ≠ ' ' then m ||| (1 <<< (x + W * y)) else m)
        m)
    0

/-- The constant `horiz_mask = (1<<W)-1` used by the mirror loop. -/
def horiz_mask : Nat := (1 <<< W) - 1

/-- Body of the mirror loop of `calc_pieces_available` for row pair `l`:
swaps row `l` with row `(h-1)-l`.  The C complement `~(bot_mask|top_mask)`
of a `uint32_t` is the xor with the all-ones 32-bit word. -/
def mirrorStep (h m l : Nat) : Nat :=
  let bot_shift := W * l
  let top_shift := W * ((h - 1) - l)
  let bot_mask := horiz_mask <<< bot_shift
  let top_mask := horiz_mask <<< top_shift
  let bot := (m &&& bot_mask) >>> bot_shift
  let top := (m &&& top_mask) >>> top_shift
  (m &&& (4294967295 ^^^ (bot_mask ||| top_mask))) ||| (top <<< bot_shift) ||| (bot <<< top_shift)

/-- The whole mirror loop: `for (l = 0; l < piece_h/2; ++l)` applied to `mask`. -/
def mirrorPiece (h m : Nat) : Nat :=
  (List.range (h / 2)).foldl (mirrorStep h) m

/-- The 90-degree rotation loop of `calc_pieces_available`:
bit `(W*y + x)` maps to bit `(W*x + ((h-1) - y))`. -/
def rotatePiece (w h m : Nat) : Nat :=
  (List.range h).foldl
    (fun rm y =>
      (List.range w).foldl
        (fun rm x =>
          if m &&& (1 <<< (W * y + x)) ≠ 0 then rm ||| (1 <<< (W * x + ((h - 1) - y))) else rm)
        rm)
    0

/-- State of the generation loop for one piece: orientations recorded so far
plus the current `(mask, piece_w, piece_h)`. -/
structure GenState where
  os : List Orient
  mask : Nat
  w : Nat
  h : Nat
deriving DecidableEq

/-- Record the current orientation unless an identical `(mask, w, h)` triple
was already recorded (the `redundant_orientation` check). -/
def addOrient (os : List Orient) (m w h : Nat) : List Orient :=
  if os.any (fun o => o.w == w && o.h == h && o.mask == m) then os else os ++ [⟨m, w, h⟩]

/-- One iteration of the `k` loop over {not mirrored, mirrored}: record the
current orientation, then replace the mask by its mirror image. -/
def kStep (s : GenState) : GenState :=
  { os := addOrient s.os s.mask s.w s.h, mask := mirrorPiece s.h s.mask, w := s.w, h := s.h }

/-- One iteration of the `j` loop over the 4 rotations: two `k` iterations
(after which the mask is back to the iteration's original), then a 90-degree
rotation with width and height swapped. -/
def jStep (s : GenState) : GenState :=
  let t := kStep (kStep s)
  { os := t.os, mask := rotatePiece t.w t.h t.mask, w := t.h, h := t.w }

/-- Orientation generation for one piece: initial mask from the definition
grid, then 4 `j` iterations. -/
def calcPiece (pd : piece_def) : piece_orientations :=
  { orients := (jStep (jStep (jStep (jStep
      { os := [], mask := pieceMask pd.defStr pd.w pd.h, w := pd.w, h := pd.h })))).os }

/-- The function `calc_pieces_available`, computing every piece's orientation
set from its definition. -/
def calc_pieces_available (defs : List piece_def) : List piece_orientations :=
  defs.map calcPiece

/-- The table `pieces_available[NUM_PIECES]` as `main` computes it. -/
def pieces_available : List piece_orientations :=
  calc_pieces_available piece_definition

/-- The pool of piece orientation sets carried through the search. -/
abbrev Avail := List piece_orientations

/-- Default value for out-of-range pool reads (never reached: the pool always
has length `NUM_PIECES` and every index used is below it). -/
def defaultPO : piece_orientations := ⟨[]⟩

/-- The 32-bit placement mask `piece_mask = mask << (x+W*y)` of `recurse`
(`uint32_t`, hence the explicit reduction modulo `2^32`). -/
def placeMask (mask sh : Nat) : Nat :=
  (mask <<< sh) % 4294967296

/-- The anchor shifts `x + W*y` tried for one orientation by `recurse`:
`y` from `0` to `H - h` and `x` from `0` to `W - w`, both inclusive. -/
def offsets (o : Orient) : List Nat :=
  (List.range (H - o.h + 1)).flatMap
    (fun y => (List.range (W - o.w + 1)).map (fun x => x + W * y))

/-- The `x`/`y` loops of `recurse` for one orientation mask: try every shift,
skip a placement that overlaps `state` (`piece_mask & state`), otherwise
record the placement in the solution and recurse through `k`. -/
def posLoop (k : Nat → Nat → Avail → List Nat → List (List Nat) × Avail)
    (iter state mask : Nat) (sol : List Nat) :
    Avail → List Nat → List (List Nat) × Avail
  | avail, [] => ([], avail)
  | avail, sh :: shs =>
    let pm := placeMask mask sh
    if pm &&& state ≠ 0 then posLoop k iter state mask sol avail shs
    else
      let r1 := k (iter + 1) (state ||| pm) avail (sol ++ [pm])
      let r2 := posLoop k iter state mask sol r1.2 shs
      (r1.1 ++ r2.1, r2.2)

/-- The `j` loop of `recurse` over the saved copy `p` of the chosen slot:
try every orientation in turn. -/
def orientLoop (k : Nat → Nat → Avail → List Nat → List (List Nat) × Avail)
    (iter state : Nat) (sol : List Nat) :
    Avail → List Orient → List (List Nat) × Avail
  | avail, [] => ([], avail)
  | avail, o :: os =>
    let r1 := posLoop k iter state o.mask sol avail (offsets o)
    let r2 := orientLoop k iter state sol r1.2 os
    (r1.1 ++ r2.1, r2.2)

/-- The `i` loop of `recurse` over the remaining slots: save `p =
pieces_available[i]`, overwrite slot `i` with a copy of slot 0
(`pieces_available[i] = pieces_available[0]` in the source), run the inner
loops, then restore slot `i` to `p` before the next iteration. -/
def slotLoop (k : Nat → Nat → Avail → List Nat → List (List Nat) × Avail)
    (iter state : Nat) (sol : List Nat) :
    Avail → List Nat → List (List Nat) × Avail
  | avail, [] => ([], avail)
  | avail, i :: is =>
    let p := avail.getD i defaultPO
    let avail1 := avail.set i (avail.getD 0 defaultPO)
    let r1 := orientLoop k iter state sol avail1 p.orients
    let avail2 := r1.2.set i p
    let r2 := slotLoop k iter state sol avail2 is
    (r1.1 ++ r2.1, r2.2)

/-- The function `recurse(iter, state, pieces_available, solution)`.  At
`iter == NUM_PIECES` the current solution is reported (`found_solution`);
otherwise the slot loop runs over indices `iter..NUM_PIECES-1`.  The value is
the list of reported solutions (each the 7 recorded placement masks in depth
order) together with the final `pieces_available` array.  The extra `fuel`
argument makes the recursion structural; every actual call uses
`fuel = NUM_PIECES - iter`, and `fuel = 0` with `iter < NUM_PIECES` never
arises on such calls. -/
def recurse : Nat → Nat → Nat → Avail → List Nat → List (List Nat) × Avail
  | 0, iter, _state, avail, sol =>
    if iter = NUM_PIECES then ([sol], avail) else ([], avail)
  | fuel + 1, iter, state, avail, sol =>
    if iter = NUM_PIECES then ([sol], avail)
    else slotLoop (fun it st av so => recurse fuel it st av so) iter state sol avail
      (List.range' iter (NUM_PIECES - iter))

/-- The solutions reported by the whole run of `main`:
`recurse(0, 0, pieces_available, solution)`. -/
def searchSolutions : List (List Nat) :=
  (recurse NUM_PIECES 0 0 pieces_available []).1

/-- One step of the per-cell scan of `print_solution`: the accumulator is the
`(found, error)` pair of flags; a placement covering the cell while `found`
is already set raises the error flag (the `Internal error: overlapping
pieces!` path). -/
def cellStep (cell : Nat) (acc : Bool × Bool) (m : Nat) : Bool × Bool :=
  if m &&& (1 <<< cell) ≠ 0 then
    if acc.1 then (acc.1, true) else (true, acc.2)
  else acc

/-- The per-cell scan of `print_solution` over all placements of a solution. -/
def cellError (s : List Nat) (cell : Nat) : Bool :=
  (s.foldl (cellStep cell) (false, false)).2

/-- Whether `print_solution` hits its internal-error exit for a reported
solution: some board cell `x + W*y` is covered by two placements. -/
def solutionError (s : List Nat) : Bool :=
  (List.range H).any (fun y => (List.range W).any (fun x => cellError s (x + W * y)))

/-- The process exit code of `main`: 0 on normal completion, 1 when
`print_solution` detects overlapping placements in some reported solution
(`exit(1)`). -/
def mainExitCode : Nat :=
  if searchSolutions.any solutionError then 1 else 0

/-- Bitwise OR of a list of masks (the occupancy built from a solution). -/
def orAll (l : List Nat) : Nat := l.foldr (fun a b => a ||| b) 0

/-- Number of board bits (positions 0..27) set in a mask. -/
def bitCount28 (m : Nat) : Nat := (List.range 28).countP (fun b => m.testBit b)

/-- Checkerboard mask: board cells `x + W*y` with `x + y` even. -/
def blackMask : Nat :=
  (List.range 28).foldl (fun m b => if (b % 4 + b / 4) % 2 = 0 then m ||| (1 <<< b) else m) 0

/-- All in-bounds placement masks of one piece: every orientation shifted to
every anchor that `recurse` tries for it. -/
def placementsOf (p : piece_orientations) : List Nat :=
  p.orients.flatMap (fun o => (offsets o).map (fun sh => placeMask o.mask sh))

/-- All in-bounds placement masks of any of the 7 pieces. -/
def allPlacements : List Nat := pieces_available.flatMap placementsOf

/-- The orientation set of the T piece (piece definition index 6). -/
def tPiece : piece_orientations := pieces_available.getD 6 defaultPO

/-- All in-bounds placement masks of the T piece. -/
def tPlacements : List Nat := placementsOf tPiece

/-- Whether a mask is a T-piece placement. -/
def tMemB (m : Nat) : Bool := decide (m ∈ tPlacements)

/-- Number of pool slots in `[k, k+n)` holding the T piece's orientation set. -/
def cntTgo (avail : Avail) : Nat → Nat → Nat
  | 0, _ => 0
  | n + 1, k => (if avail.getD k defaultPO = tPiece then 1 else 0) + cntTgo avail n (k + 1)

/-- Number of pool slots in `[iter, NUM_PIECES)` holding the T piece. -/
def cntT (avail : Avail) (iter : Nat) : Nat := cntTgo avail (NUM_PIECES - iter) iter

/-- Invariant of a `recurse(iter, state, avail, sol)` call that every call
reachable from `main`'s initial call satisfies: the pool has 7 slots all
drawn from the generated table, and `sol` records `iter` pairwise disjoint
in-bounds placements whose union is `state`. -/
def CallInv (iter state : Nat) (avail : Avail) (sol : List Nat) : Prop :=
  avail.length = NUM_PIECES ∧
  (∀ q ∈ avail, q ∈ pieces_available) ∧
  sol.length = iter ∧
  state = orAll sol ∧
  List.Pairwise (fun a b => a &&& b = 0) sol ∧
  (∀ m ∈ sol, m ∈ allPlacements)

/-- The T-piece bookkeeping invariant: slot 0 always holds piece 0's
orientation set, the T piece never sits below slot `NUM_PIECES - 1`, and the
number of T placements recorded plus the number of T slots still offered is
exactly one. -/
def TInv (iter : Nat) (avail : Avail) (sol : List Nat) : Prop :=
  avail.getD 0 defaultPO = pieces_available.getD 0 defaultPO ∧
  (∀ k < NUM_PIECES - 1, avail.getD k defaultPO ≠ tPiece) ∧
  sol.countP tMemB + cntT avail iter = 1

/-- Combined invariant. -/
def InvT (iter state : Nat) (avail : Avail) (sol : List Nat) : Prop :=
  CallInv iter state avail sol ∧ TInv iter avail sol

/-- The call tree of the search: `Reach iter state avail sol placed` holds
when `recurse` is invoked with arguments `iter, state, avail, sol` somewhere
during the run started by `main`, where `placed` lists the orientation-set
copies saved from the chosen slots.  Each `step` is one descent of
`recurse`: a slot `i` in `[iter, NUM_PIECES)`, an orientation `o` of the
saved copy, an in-bounds shift, and a placement passing the overlap test;
the pool passed down has slot `i` overwritten with a copy of slot 0. -/
inductive Reach : Nat → Nat → Avail → List Nat → List piece_orientations → Prop where
  | init : Reach 0 0 pieces_available [] []
  | step {iter state : Nat} {avail : Avail} {sol : List Nat}
      {placed : List piece_orientations}
      (i : Nat) (o : Orient) (sh : Nat)
      (hr : Reach iter state avail sol placed)
      (hiter : iter < NUM_PIECES)
      (hi : i ∈ List.range' iter (NUM_PIECES - iter))
      (ho : o ∈ (avail.getD i defaultPO).orients)
      (hsh : sh ∈ offsets o)
      (hov : placeMask o.mask sh &&& state = 0) :
      Reach (iter + 1) (state ||| placeMask o.mask sh)
        (avail.set i (avail.getD 0 defaultPO))
        (sol ++ [placeMask o.mask sh])
        (placed ++ [avail.getD i defaultPO])

/-! ### List helpers -/

theorem set_getD_self_eq {α : Type} (l : List α) (i : Nat) (d : α) :
    l.set i (l.getD i d) = l := by
  induction l generalizing i with
  | nil => rfl
  | cons a t ih =>
    cases i with
    | zero => simp
    | succ n => simp only [List.getD_cons_succ, List.set_cons_succ, ih]

theorem getD_set_ne {α : Type} (l : List α) {i j : Nat} (h : i ≠ j) (x d : α) :
    (l.set i x).getD j d = l.getD j d := by
  simp [List.getD_eq_getElem?_getD, List.getElem?_set_ne h]

theorem getD_set_self {α : Type} (l : List α) {i : Nat} (h : i < l.length) (x d : α) :
    (l.set i x).getD i d = x := by
  simp [List.getD_eq_getElem?_getD, List.getElem?_set_self h]

theorem getD_mem {α : Type} (l : List α) {i : Nat} (h : i < l.length) (d : α) :
    l.getD i d ∈ l := by
  rw [List.getD_eq_getElem l d h]
  exact List.getElem_mem h

/-! ### The pool is restored: `recurse` and its loops return the pool
value they were given -/

theorem posLoop_snd (k : Nat → Nat → Avail → List Nat → List (List Nat) × Avail)
    (hk : ∀ it st av so, (k it st av so).2 = av)
    (iter state mask : Nat) (sol : List Nat) :
    ∀ (avail : Avail) (shifts : List Nat),
      (posLoop k iter state mask sol avail shifts).2 = avail := by
  intro avail shifts
  induction shifts generalizing avail with
  | nil => rfl
  | cons sh shs ih =>
    simp only [posLoop]
    split
    · exact ih avail
    · simp only [hk, ih]

theorem orientLoop_snd (k : Nat → Nat → Avail → List Nat → List (List Nat) × Avail)
    (hk : ∀ it st av so, (k it st av so).2 = av)
    (iter state : Nat) (sol : List Nat) :
    ∀ (avail : Avail) (os : List Orient),
      (orientLoop k iter state sol avail os).2 = avail := by
  intro avail os
  induction os generalizing avail with
  | nil => rfl
  | cons o os ih =>
    simp only [orientLoop, posLoop_snd k hk, ih]

theorem slotLoop_snd (k : Nat → Nat → Avail → List Nat → List (List Nat) × Avail)
    (hk : ∀ it st av so, (k it st av so).2 = av)
    (iter state : Nat) (sol : List Nat) :
    ∀ (avail : Avail) (is : List Nat),
      (slotLoop k iter state sol avail is).2 = avail := by
  intro avail is
  induction is generalizing avail with
  | nil => rfl
  | cons i is ih =>
    simp only [slotLoop, orientLoop_snd k hk, List.set_set, set_getD_self_eq, ih]

theorem recurse_snd :
    ∀ (fuel iter state : Nat) (avail : Avail) (sol : List Nat),
      (recurse fuel iter state avail sol).2 = avail := by
  intro fuel
  induction fuel with
  | zero =>
    intro iter state avail sol
    simp only [recurse]
    split <;> rfl
  | succ fuel ih =>
    intro iter state avail sol
    simp only [recurse]
    split
    · rfl
    · exact slotLoop_snd _ (fun it st av so => ih it st av so) _ _ _ _ _

/-- Restoration of the pool inside one slot iteration: after the inner loops
for chosen slot `i` return (they preserve their pool argument), writing the
saved copy back into slot `i` recreates exactly the pool from the moment the
slot was chosen. -/
theorem slot_restores (fuel iter state : Nat) (sol : List Nat) (avail : Avail) (i : Nat) :
    ((orientLoop (fun it st av so => recurse fuel it st av so) iter state sol
        (avail.set i (avail.getD 0 defaultPO))
        (avail.getD i defaultPO).orients).2).set i (avail.getD i defaultPO) = avail := by
  rw [orientLoop_snd _ (fun it st av so => recurse_snd fuel it st av so),
    List.set_set, set_getD_self_eq]

/-! ### Generic soundness walk: any property family `P` of call states that
is closed under the descent step of `recurse` yields a property `G` of every
reported solution -/

theorem placementsOf_mem {p : piece_orientations} {o : Orient} {sh : Nat}
    (ho : o ∈ p.orients) (hsh : sh ∈ offsets o) :
    placeMask o.mask sh ∈ placementsOf p := by
  simp only [placementsOf, List.mem_flatMap]
  exact ⟨o, ho, List.mem_map.mpr ⟨sh, hsh, rfl⟩⟩

theorem posLoop_sound (P : Nat → Nat → Avail → List Nat → Prop) (G : List Nat → Prop)
    (k : Nat → Nat → Avail → List Nat → List (List Nat) × Avail)
    (iter state mask : Nat) (sol : List Nat) (q : piece_orientations)
    (hk : ∀ st av so, P (iter + 1) st av so → ∀ s ∈ (k (iter + 1) st av so).1, G s)
    (hkp : ∀ it st av so, (k it st av so).2 = av)
    (avail : Avail)
    (hstep : ∀ pm, pm ∈ placementsOf q → pm &&& state = 0 →
      P (iter + 1) (state ||| pm) avail (sol ++ [pm])) :
    ∀ (shifts : List Nat), (∀ sh ∈ shifts, placeMask mask sh ∈ placementsOf q) →
      ∀ s ∈ (posLoop k iter state mask sol avail shifts).1, G s := by
  intro shifts
  induction shifts with
  | nil => intro _ s hs; simp only [posLoop, List.not_mem_nil] at hs
  | cons sh shs ih =>
    intro hmem s hs
    simp only [posLoop] at hs
    split at hs
    · exact ih (fun u hu => hmem u (List.mem_cons_of_mem sh hu)) s hs
    · rw [hkp] at hs
      rcases List.mem_append.mp hs with hl | hr
      · have hcond : placeMask mask sh &&& state = 0 := by omega
        exact hk _ _ _ (hstep _ (hmem sh (List.mem_cons_self sh shs)) hcond) s hl
      · exact ih (fun u hu => hmem u (List.mem_cons_of_mem sh hu)) s hr

theorem orientLoop_sound (P : Nat → Nat → Avail → List Nat → Prop) (G : List Nat → Prop)
    (k : Nat → Nat → Avail → List Nat → List (List Nat) × Avail)
    (iter state : Nat) (sol : List Nat) (q : piece_orientations)
    (hk : ∀ st av so, P (iter + 1) st av so → ∀ s ∈ (k (iter + 1) st av so).1, G s)
    (hkp : ∀ it st av so, (k it st av so).2 = av)
    (avail : Avail)
    (hstep : ∀ pm, pm ∈ placementsOf q → pm &&& state = 0 →
      P (iter + 1) (state ||| pm) avail (sol ++ [pm])) :
    ∀ (os : List Orient), (∀ o ∈ os, o ∈ q.orients) →
      ∀ s ∈ (orientLoop k iter state sol avail os).1, G s := by
  intro os
  induction os with
  | nil => intro _ s hs; simp only [orientLoop, List.not_mem_nil] at hs
  | cons o os ih =>
    intro hos s hs
    simp only [orientLoop] at hs
    rw [posLoop_snd k hkp] at hs
    rcases List.mem_append.mp hs with hl | hr
    · exact posLoop_sound P G k iter state o.mask sol q hk hkp avail hstep (offsets o)
        (fun sh hsh => placementsOf_mem (hos o (List.mem_cons_self o os)) hsh) s hl
    · exact ih (fun u hu => hos u (List.mem_cons_of_mem o hu)) s hr

theorem slotLoop_sound (P : Nat → Nat → Avail → List Nat → Prop) (G : List Nat → Prop)
    (k : Nat → Nat → Avail → List Nat → List (List Nat) × Avail)
    (iter state : Nat) (sol : List Nat)
    (hk : ∀ st av so, P (iter + 1) st av so → ∀ s ∈ (k (iter + 1) st av so).1, G s)
    (hkp : ∀ it st av so, (k it st av so).2 = av)
    (hstep : ∀ (avail : Avail) (i : Nat), P iter state avail sol → iter ≤ i →
      i < NUM_PIECES → ∀ pm ∈ placementsOf (avail.getD i defaultPO), pm &&& state = 0 →
      P (iter + 1) (state ||| pm) (avail.set i (avail.getD 0 defaultPO)) (sol ++ [pm])) :
    ∀ (avail : Avail) (is : List Nat), (∀ i ∈ is, iter ≤ i ∧ i < NUM_PIECES) →
      P iter state avail sol → ∀ s ∈ (slotLoop k iter state sol avail is).1, G s := by
  intro avail is
  induction is generalizing avail with
  | nil => intro _ _ s hs; simp only [slotLoop, List.not_mem_nil] at hs
  | cons i is ih =>
    intro his hP s hs
    simp only [slotLoop] at hs
    rw [orientLoop_snd k hkp, List.set_set, set_getD_self_eq] at hs
    rcases List.mem_append.mp hs with hl | hr
    · exact orientLoop_sound P G k iter state sol (avail.getD i defaultPO) hk hkp
        (avail.set i (avail.getD 0 defaultPO))
        (hstep avail i hP (his i (List.mem_cons_self i is)).1
          (his i (List.mem_cons_self i is)).2)
        (avail.getD i defaultPO).orients (fun _ ho => ho) s hl
    · exact ih avail (fun u hu => his u (List.mem_cons_of_mem i hu)) hP s hr

theorem recurse_sound (P : Nat → Nat → Avail → List Nat → Prop) (G : List Nat → Prop)
    (hstep : ∀ (iter state : Nat) (avail : Avail) (sol : List Nat) (i : Nat),
      P iter state avail sol → iter ≤ i → i < NUM_PIECES →
      ∀ pm ∈ placementsOf (avail.getD i defaultPO), pm &&& state = 0 →
      P (iter + 1) (state ||| pm) (avail.set i (avail.getD 0 defaultPO)) (sol ++ [pm]))
    (hbase : ∀ state avail sol, P NUM_PIECES state avail sol → G sol) :
    ∀ (fuel iter state : Nat) (avail : Avail) (sol : List Nat),
      P iter state avail sol → ∀ s ∈ (recurse fuel iter state avail sol).1, G s := by
  intro fuel
  induction fuel with
  | zero =>
    intro iter state avail sol hP s hs
    simp only [recurse] at hs
    split at hs
    · next h => rw [List.mem_singleton] at hs; subst hs; exact hbase state avail _ (h ▸ hP)
    · simp only [List.not_mem_nil] at hs
  | succ fuel ih =>
    intro iter state avail sol hP s hs
    simp only [recurse] at hs
    split at hs
    · next h => rw [List.mem_singleton] at hs; subst hs; exact hbase state avail _ (h ▸ hP)
    · refine slotLoop_sound P G _ iter state sol
        (fun st av so hp => ih (iter + 1) st av so hp)
        (fun it st av so => recurse_snd fuel it st av so)
        (fun av i => hstep iter state av sol i) avail (List.range' iter (NUM_PIECES - iter)) ?_ hP s hs
      intro i hi
      rw [List.mem_range'] at hi
      omega

/-! ### Bitmask accounting -/

theorem orAll_cons (a : Nat) (l : List Nat) : orAll (a :: l) = a ||| orAll l := rfl

theorem orAll_append_single (l : List Nat) (x : Nat) : orAll (l ++ [x]) = orAll l ||| x := by
  induction l with
  | nil =>
    show x ||| 0 = 0 ||| x
    rw [Nat.or_zero, Nat.zero_or]
  | cons a t ih =>
    show a ||| orAll (t ++ [x]) = (a ||| orAll t) ||| x
    rw [ih, Nat.or_assoc]

theorem or_eq_zero {a b : Nat} (h : a ||| b = 0) : a = 0 ∧ b = 0 := by
  constructor <;>
    · apply Nat.eq_of_testBit_eq
      intro i
      have hb := congrArg (fun n => n.testBit i) h
      simp only [Nat.testBit_or, Nat.zero_testBit, Bool.or_eq_false_iff] at hb
      simp [Nat.zero_testBit, hb.1, hb.2]

theorem of_and_orAll {x : Nat} :
    ∀ {l : List Nat}, x &&& orAll l = 0 → ∀ m ∈ l, x &&& m = 0 := by
  intro l
  induction l with
  | nil => intro _ m hm; simp at hm
  | cons a t ih =>
    intro h m hm
    rw [orAll_cons, Nat.and_or_distrib_left] at h
    rcases List.mem_cons.mp hm with rfl | hm
    · exact (or_eq_zero h).1
    · exact ih (or_eq_zero h).2 m hm

theorem and_orAll_of {x : Nat} :
    ∀ {l : List Nat}, (∀ m ∈ l, x &&& m = 0) → x &&& orAll l = 0 := by
  intro l
  induction l with
  | nil => intro _; simp [orAll]
  | cons a t ih =>
    intro h
    rw [orAll_cons, Nat.and_or_distrib_left, h a (List.mem_cons_self a t),
      ih (fun m hm => h m (List.mem_cons_of_mem a hm))]
    rfl

theorem orAll_lt_two_pow : ∀ {l : List Nat}, (∀ m ∈ l, m < 2 ^ 28) → orAll l < 2 ^ 28 := by
  intro l
  induction l with
  | nil => intro _; show (0 : Nat) < 2 ^ 28; norm_num
  | cons a t ih =>
    intro h
    rw [orAll_cons]
    exact Nat.or_lt_two_pow (h a (List.mem_cons_self a t))
      (ih (fun m hm => h m (List.mem_cons_of_mem a hm)))

theorem countP_or_exclusive {α : Type} (p q : α → Bool) :
    ∀ (l : List α), (∀ a ∈ l, ¬(p a = true ∧ q a = true)) →
      l.countP (fun a => p a || q a) = l.countP p + l.countP q := by
  intro l
  induction l with
  | nil => intro _; rfl
  | cons a t ih =>
    intro h
    have ht := ih (fun x hx => h x (List.mem_cons_of_mem a hx))
    have ha := h a (List.mem_cons_self a t)
    simp only [List.countP_cons, ht]
    cases hp : p a <;> cases hq : q a <;> simp_all <;> omega

theorem bc28_or_disjoint {a b : Nat} (h : a &&& b = 0) :
    bitCount28 (a ||| b) = bitCount28 a + bitCount28 b := by
  unfold bitCount28
  rw [← countP_or_exclusive (fun i => a.testBit i) (fun i => b.testBit i) (List.range 28)]
  · exact List.countP_congr (fun x _ => by simp [Nat.testBit_or])
  · intro i _ hi
    have hb := congrArg (fun n => n.testBit i) h
    simp only [Nat.testBit_and, Nat.zero_testBit] at hb
    rw [hi.1, hi.2] at hb
    simp at hb

theorem and_and_disjoint {x y c : Nat} (h : x &&& y = 0) :
    (x &&& c) &&& (y &&& c) = 0 := by
  apply Nat.eq_of_testBit_eq
  intro i
  have hxy := congrArg (fun n => n.testBit i) h
  simp only [Nat.testBit_and, Nat.zero_testBit] at hxy ⊢
  cases hx : x.testBit i <;> cases hy : y.testBit i <;> simp_all

theorem bc28_orAll :
    ∀ {l : List Nat}, List.Pairwise (fun a b => a &&& b = 0) l →
      (∀ m ∈ l, bitCount28 m = 4) → bitCount28 (orAll l) = 4 * l.length := by
  intro l
  induction l with
  | nil => intro _ _; simp [orAll, bitCount28, Nat.zero_testBit]
  | cons a t ih =>
    intro hpw h4
    rw [List.pairwise_cons] at hpw
    rw [orAll_cons, bc28_or_disjoint (and_orAll_of hpw.1),
      h4 a (List.mem_cons_self a t),
      ih hpw.2 (fun m hm => h4 m (List.mem_cons_of_mem a hm))]
    simp [List.length_cons]
    ring

theorem bc28_full {s : Nat} (hb : bitCount28 s = 28) (hlt : s < 2 ^ 28) :
    s = 268435455 := by
  have hlen : bitCount28 s = (List.range 28).length := by simpa using hb
  have hall := List.countP_eq_length.mp hlen
  have h28 : (268435455 : Nat) = 2 ^ 28 - 1 := by norm_num
  apply Nat.eq_of_testBit_eq
  intro i
  by_cases hi : i < 28
  · rw [hall i (List.mem_range.mpr hi), h28, Nat.testBit_two_pow_sub_one]
    simp [hi]
  · have h1 : s.testBit i = false :=
      Nat.testBit_lt_two_pow
        (lt_of_lt_of_le hlt (Nat.pow_le_pow_right (by norm_num) (by omega)))
    rw [h1, h28, Nat.testBit_two_pow_sub_one]
    simp
    omega

/-! ### Concrete facts about the placement tables, checked by evaluation -/

theorem placement_facts : ∀ m ∈ allPlacements, bitCount28 m = 4 ∧ m < 2 ^ 28 := by decide

theorem placement_parity :
    ∀ m ∈ allPlacements,
      bitCount28 (m &&& blackMask) % 2 = (if tMemB m then 1 else 0) := by decide

theorem placement_tmem :
    ∀ q ∈ pieces_available, ∀ pm ∈ placementsOf q, (tMemB pm = true ↔ q = tPiece) := by decide

theorem slot0_ne_tPiece : pieces_available.getD 0 defaultPO ≠ tPiece := by decide

theorem black_of_full : bitCount28 (268435455 &&& blackMask) = 14 := by decide

theorem parity_orAll :
    ∀ (l : List Nat), List.Pairwise (fun a b => a &&& b = 0) l →
      (∀ m ∈ l, m ∈ allPlacements) →
      bitCount28 (orAll l &&& blackMask) % 2 = l.countP tMemB % 2 := by
  intro l
  induction l with
  | nil => simp [orAll, bitCount28, Nat.zero_testBit, Nat.zero_and]
  | cons a t ih =>
    intro hpw hmem
    rw [List.pairwise_cons] at hpw
    have hdisj : a &&& orAll t = 0 := and_orAll_of hpw.1
    rw [orAll_cons, Nat.and_comm _ blackMask, Nat.and_or_distrib_left,
      Nat.and_comm blackMask a, Nat.and_comm blackMask (orAll t),
      bc28_or_disjoint (and_and_disjoint hdisj), List.countP_cons]
    have hpa := placement_parity a (hmem a (List.mem_cons_self a t))
    have hih := ih hpw.2 (fun m hm => hmem m (List.mem_cons_of_mem a hm))
    cases ht : tMemB a <;> simp [ht] at hpa ⊢ <;> omega

/-! ### The call invariants are preserved by the descent step -/

/-- What holds of every reported solution: 7 pairwise disjoint in-bounds
placements whose union is the full board. -/
def GoodSol (s : List Nat) : Prop :=
  s.length = NUM_PIECES ∧ List.Pairwise (fun a b => a &&& b = 0) s ∧
  (∀ m ∈ s, m ∈ allPlacements) ∧ orAll s = 268435455

/-- `GoodSol` plus: exactly one of the placements is a T-piece placement. -/
def GoodSolT (s : List Nat) : Prop :=
  GoodSol s ∧ s.countP tMemB = 1

theorem mem_allPlacements {q : piece_orientations} {pm : Nat}
    (hq : q ∈ pieces_available) (hpm : pm ∈ placementsOf q) : pm ∈ allPlacements :=
  List.mem_flatMap.mpr ⟨q, hq, hpm⟩

theorem callInv_step :
    ∀ (iter state : Nat) (avail : Avail) (sol : List Nat) (i : Nat),
      CallInv iter state avail sol → iter ≤ i → i < NUM_PIECES →
      ∀ pm ∈ placementsOf (avail.getD i defaultPO), pm &&& state = 0 →
      CallInv (iter + 1) (state ||| pm) (avail.set i (avail.getD 0 defaultPO))
        (sol ++ [pm]) := by
  intro iter state avail sol i hInv _hle hlt pm hpm hov
  obtain ⟨hLen, hMem, hSolLen, hState, hPW, hSolMem⟩ := hInv
  have hq : avail.getD i defaultPO ∈ pieces_available :=
    hMem _ (getD_mem avail (by omega) defaultPO)
  refine ⟨?_, ?_, ?_, ?_, ?_, ?_⟩
  · rw [List.length_set]; exact hLen
  · intro q hqm
    rcases List.mem_or_eq_of_mem_set hqm with h | rfl
    · exact hMem q h
    · exact hMem _ (getD_mem avail (by omega) defaultPO)
  · rw [List.length_append, hSolLen]; rfl
  · rw [orAll_append_single, hState]
  · rw [List.pairwise_append]
    refine ⟨hPW, List.pairwise_singleton _ _, ?_⟩
    intro a ha b hb
    rw [List.mem_singleton] at hb
    have h0 : pm &&& a = 0 := of_and_orAll (hState ▸ hov) a ha
    rw [hb, Nat.and_comm]
    exact h0
  · intro m hm
    rcases List.mem_append.mp hm with h | h
    · exact hSolMem m h
    · rw [List.mem_singleton] at h; subst h
      exact mem_allPlacements hq hpm

theorem callInv_base :
    ∀ (state : Nat) (avail : Avail) (sol : List Nat),
      CallInv NUM_PIECES state avail sol → GoodSol sol := by
  intro state avail sol hInv
  obtain ⟨-, -, hSolLen, -, hPW, hSolMem⟩ := hInv
  refine ⟨hSolLen, hPW, hSolMem, ?_⟩
  have h4 : ∀ m ∈ sol, bitCount28 m = 4 := fun m hm => (placement_facts m (hSolMem m hm)).1
  have hlt : ∀ m ∈ sol, m < 2 ^ 28 := fun m hm => (placement_facts m (hSolMem m hm)).2
  refine bc28_full ?_ (orAll_lt_two_pow hlt)
  rw [bc28_orAll hPW h4, hSolLen]
  decide

/-! ### The T-piece counting invariant -/

theorem cntT_split {iter : Nat} (h : iter < NUM_PIECES) (avail : Avail) :
    cntT avail iter =
      (if avail.getD iter defaultPO = tPiece then 1 else 0) + cntT avail (iter + 1) := by
  unfold cntT
  have hn : NUM_PIECES - iter = (NUM_PIECES - (iter + 1)) + 1 := by omega
  rw [hn]
  rfl

theorem cntTgo_set_out {avail : Avail} {i : Nat} (x : piece_orientations) :
    ∀ (n k : Nat), i < k ∨ k + n ≤ i →
      cntTgo (avail.set i x) n k = cntTgo avail n k := by
  intro n
  induction n with
  | zero => intro k _; rfl
  | succ n ih =>
    intro k hk
    simp only [cntTgo]
    rw [getD_set_ne avail (by omega) x defaultPO, ih (k + 1) (by omega)]

theorem cntTgo_set_in {avail : Avail} {i : Nat} (x : piece_orientations)
    (hi : i < avail.length) :
    ∀ (n k : Nat), k ≤ i → i < k + n →
      cntTgo (avail.set i x) n k + (if avail.getD i defaultPO = tPiece then 1 else 0) =
      cntTgo avail n k + (if x = tPiece then 1 else 0) := by
  intro n
  induction n with
  | zero => intro k h1 h2; omega
  | succ n ih =>
    intro k h1 h2
    by_cases hk : k = i
    · subst hk
      simp only [cntTgo]
      rw [getD_set_self avail hi x defaultPO, cntTgo_set_out x n (k + 1) (Or.inl (by omega))]
      omega
    · simp only [cntTgo]
      rw [getD_set_ne avail (by omega) x defaultPO]
      have := ih (k + 1) (by omega) (by omega)
      omega

theorem tInv_step :
    ∀ (iter state : Nat) (avail : Avail) (sol : List Nat) (i : Nat),
      InvT iter state avail sol → iter ≤ i → i < NUM_PIECES →
      ∀ pm ∈ placementsOf (avail.getD i defaultPO), pm &&& state = 0 →
      InvT (iter + 1) (state ||| pm) (avail.set i (avail.getD 0 defaultPO))
        (sol ++ [pm]) := by
  intro iter state avail sol i hInv hle hlt pm hpm hov
  obtain ⟨hCall, hT0, hTlow, hTsum⟩ := hInv
  have hLen : avail.length = NUM_PIECES := hCall.1
  have ha0T : avail.getD 0 defaultPO ≠ tPiece := hT0 ▸ slot0_ne_tPiece
  have hq : avail.getD i defaultPO ∈ pieces_available :=
    hCall.2.1 _ (getD_mem avail (by omega) defaultPO)
  have htm := placement_tmem _ hq pm hpm
  have hifeq : (if tMemB pm then (1 : Nat) else 0) =
      (if avail.getD i defaultPO = tPiece then (1 : Nat) else 0) := by
    by_cases hq2 : avail.getD i defaultPO = tPiece
    · rw [if_pos hq2, if_pos (htm.mpr hq2)]
    · rw [if_neg hq2, if_neg (fun ht => hq2 (htm.mp ht))]
  refine ⟨callInv_step iter state avail sol i hCall hle hlt pm hpm hov, ?_, ?_, ?_⟩
  · by_cases h0 : i = 0
    · subst h0; rw [getD_set_self avail (by omega) _ defaultPO]; exact hT0
    · rw [getD_set_ne avail h0 _ defaultPO]; exact hT0
  · intro k hk
    by_cases hik : i = k
    · subst hik; rw [getD_set_self avail (by omega) _ defaultPO]; exact ha0T
    · rw [getD_set_ne avail hik _ defaultPO]; exact hTlow k hk
  · rw [List.countP_append]
    have hsingle : List.countP tMemB [pm] = if tMemB pm then 1 else 0 := by
      simp [List.countP_cons]
    rw [hsingle]
    rcases Nat.eq_or_lt_of_le hle with rfl | hgt
    · -- the chosen slot is the leftmost offered one
      have hout : cntT (avail.set iter (avail.getD 0 defaultPO)) (iter + 1) =
          cntT avail (iter + 1) :=
        cntTgo_set_out _ _ _ (Or.inl (by omega))
      have hsplit := cntT_split hlt avail
      omega
    · -- the chosen slot lies strictly beyond `iter`
      have hql : avail.getD iter defaultPO ≠ tPiece := hTlow iter (by omega)
      have hsplit := cntT_split (by omega : iter < NUM_PIECES) avail
      rw [if_neg hql] at hsplit
      have hin := cntTgo_set_in (avail.getD 0 defaultPO)
        (show i < avail.length by omega) (NUM_PIECES - (iter + 1)) (iter + 1)
        (by omega) (by omega)
      rw [if_neg ha0T] at hin
      have hin2 : cntT (avail.set i (avail.getD 0 defaultPO)) (iter + 1) +
          (if avail.getD i defaultPO = tPiece then 1 else 0) =
          cntT avail (iter + 1) + 0 := hin
      omega

theorem invT_base :
    ∀ (state : Nat) (avail : Avail) (sol : List Nat),
      InvT NUM_PIECES state avail sol → GoodSolT sol := by
  intro state avail sol h
  refine ⟨callInv_base state avail sol h.1, ?_⟩
  have hsum := h.2.2.2
  have hz : cntT avail NUM_PIECES = 0 := rfl
  omega

theorem invT_init : InvT 0 0 pieces_available [] := by
  refine ⟨⟨by decide, fun q hq => hq, rfl, rfl, List.Pairwise.nil, by simp⟩, rfl, ?_, ?_⟩
  · decide
  · decide

/-- Every reported solution of the full run fills the board with 7 pairwise
disjoint placements, exactly one of which is a T placement. -/
theorem goodSolT_all : ∀ s ∈ searchSolutions, GoodSolT s := by
  intro s hs
  exact recurse_sound InvT GoodSolT tInv_step invT_base NUM_PIECES 0 0 pieces_available []
    invT_init s hs

/-- The generic invariant result usable from any valid call state. -/
theorem goodSol_all :
    ∀ (fuel iter state : Nat) (avail : Avail) (sol : List Nat),
      CallInv iter state avail sol →
      ∀ s ∈ (recurse fuel iter state avail sol).1, GoodSol s :=
  recurse_sound CallInv GoodSol callInv_step callInv_base

/-- The search reports no solution at all: a reported solution would tile the
board with exactly one T placement, but a T placement covers an odd number of
black cells while every other placement covers exactly two, and the board has
14 black cells. -/
theorem solutions_empty : searchSolutions = [] := by
  rw [List.eq_nil_iff_forall_not_mem]
  intro s hs
  obtain ⟨⟨hlen, hpw, hmem, hor⟩, hcnt⟩ := goodSolT_all s hs
  have hp := parity_orAll s hpw hmem
  rw [hor, hcnt, black_of_full] at hp
  omega

/-! ### Reached call states: `Reach` really is the call tree of `recurse` -/

theorem reach_invT :
    ∀ {iter state : Nat} {avail : Avail} {sol : List Nat}
      {placed : List piece_orientations},
      Reach iter state avail sol placed → InvT iter state avail sol := by
  intro iter state avail sol placed h
  induction h with
  | init => exact invT_init
  | step i o sh hr hiter hi ho hsh hov ih =>
    obtain ⟨j, hj, rfl⟩ := List.mem_range'.mp hi
    exact tInv_step _ _ _ _ _ ih (by omega) (by omega) _ (placementsOf_mem ho hsh) hov

theorem reach_state_lt :
    ∀ {iter state : Nat} {avail : Avail} {sol : List Nat}
      {placed : List piece_orientations},
      Reach iter state avail sol placed → state < 2 ^ 28 := by
  intro iter state avail sol placed h
  obtain ⟨⟨-, -, -, hState, -, hSolMem⟩, -⟩ := reach_invT h
  rw [hState]
  exact orAll_lt_two_pow (fun m hm => (placement_facts m (hSolMem m hm)).2)

/-- Membership in the positions loop: a solution reported below a successful
placement is reported by the loop. -/
theorem posLoop_mem (k : Nat → Nat → Avail → List Nat → List (List Nat) × Avail)
    (hkp : ∀ it st av so, (k it st av so).2 = av)
    (iter state mask : Nat) (sol : List Nat) (avail : Avail) (sh : Nat)
    (hov : placeMask mask sh &&& state = 0) :
    ∀ (shifts : List Nat), sh ∈ shifts →
      ∀ s ∈ (k (iter + 1) (state ||| placeMask mask sh) avail
        (sol ++ [placeMask mask sh])).1,
        s ∈ (posLoop k iter state mask sol avail shifts).1 := by
  intro shifts
  induction shifts with
  | nil => intro h; simp at h
  | cons u us ih =>
    intro hsh s hs
    simp only [posLoop]
    rcases List.mem_cons.mp hsh with rfl | hu
    · rw [if_neg (fun hc => hc hov)]
      exact List.mem_append_left _ hs
    · by_cases hc : placeMask mask u &&& state ≠ 0
      · rw [if_pos hc]
        exact ih hu s hs
      · rw [if_neg hc, hkp]
        exact List.mem_append_right _ (ih hu s hs)

/-- Membership in the orientation loop. -/
theorem orientLoop_mem (k : Nat → Nat → Avail → List Nat → List (List Nat) × Avail)
    (hkp : ∀ it st av so, (k it st av so).2 = av)
    (iter state : Nat) (sol : List Nat) (avail : Avail) (o : Orient) :
    ∀ (os : List Orient), o ∈ os →
      ∀ s ∈ (posLoop k iter state o.mask sol avail (offsets o)).1,
        s ∈ (orientLoop k iter state sol avail os).1 := by
  intro os
  induction os with
  | nil => intro h; simp at h
  | cons u us ih =>
    intro ho s hs
    simp only [orientLoop]
    rw [posLoop_snd k hkp]
    rcases List.mem_cons.mp ho with rfl | hu
    · exact List.mem_append_left _ hs
    · exact List.mem_append_right _ (ih hu s hs)

/-- Membership in the slot loop. -/
theorem slotLoop_mem (k : Nat → Nat → Avail → List Nat → List (List Nat) × Avail)
    (hkp : ∀ it st av so, (k it st av so).2 = av)
    (iter state : Nat) (sol : List Nat) (i : Nat) :
    ∀ (is : List Nat) (avail : Avail), i ∈ is →
      ∀ s ∈ (orientLoop k iter state sol (avail.set i (avail.getD 0 defaultPO))
        (avail.getD i defaultPO).orients).1,
        s ∈ (slotLoop k iter state sol avail is).1 := by
  intro is
  induction is with
  | nil => intro _ h; simp at h
  | cons u us ih =>
    intro avail hi s hs
    simp only [slotLoop]
    rw [orientLoop_snd k hkp, List.set_set, set_getD_self_eq]
    rcases List.mem_cons.mp hi with rfl | hu
    · exact List.mem_append_left _ hs
    · exact List.mem_append_right _ (ih avail hu s hs)

/-- One descent of `recurse`: a solution reported by the chosen sub-call is
reported by the caller. -/
theorem recurse_mem_step {fuel iter state : Nat} {avail : Avail} {sol : List Nat}
    {i : Nat} {o : Orient} {sh : Nat}
    (hiter : iter < NUM_PIECES)
    (hi : i ∈ List.range' iter (NUM_PIECES - iter))
    (ho : o ∈ (avail.getD i defaultPO).orients)
    (hsh : sh ∈ offsets o)
    (hov : placeMask o.mask sh &&& state = 0) :
    ∀ s ∈ (recurse fuel (iter + 1) (state ||| placeMask o.mask sh)
      (avail.set i (avail.getD 0 defaultPO)) (sol ++ [placeMask o.mask sh])).1,
      s ∈ (recurse (fuel + 1) iter state avail sol).1 := by
  intro s hs
  simp only [recurse]
  rw [if_neg (by omega)]
  refine slotLoop_mem _ (fun it st av so => recurse_snd fuel it st av so) iter state sol i
    (List.range' iter (NUM_PIECES - iter)) avail hi s ?_
  refine orientLoop_mem _ (fun it st av so => recurse_snd fuel it st av so) iter state sol
    _ o _ ho s ?_
  exact posLoop_mem _ (fun it st av so => recurse_snd fuel it st av so) iter state o.mask
    sol _ sh hov (offsets o) hsh s hs

/-- Connection of `Reach` to the run of `main`: whatever a reached call
reports, the whole run reports. -/
theorem reach_sub :
    ∀ {iter state : Nat} {avail : Avail} {sol : List Nat}
      {placed : List piece_orientations},
      Reach iter state avail sol placed →
      ∀ s ∈ (recurse (NUM_PIECES - iter) iter state avail sol).1,
        s ∈ searchSolutions := by
  intro iter state avail sol placed h
  induction h with
  | init => intro s hs; exact hs
  | @step iter2 state2 avail2 sol2 placed2 i o sh hr hiter hi ho hsh hov ih =>
    intro s hs
    apply ih
    have hfuel : NUM_PIECES - iter2 = (NUM_PIECES - (iter2 + 1)) + 1 := by omega
    rw [hfuel]
    exact recurse_mem_step hiter hi ho hsh hov s hs

/-- Transport of a reached call state along proven equalities of its
components (used to present concrete reached states in evaluated form). -/
theorem reach_congr {a b a2 b2 : Nat} {c c2 : Avail} {d d2 : List Nat}
    {e e2 : List piece_orientations} (h : Reach a b c d e)
    (h1 : a = a2) (h2 : b = b2) (h3 : c = c2) (h4 : d = d2) (h5 : e = e2) :
    Reach a2 b2 c2 d2 e2 := h1 ▸ h2 ▸ h3 ▸ h4 ▸ h5 ▸ h

/-! ### Analysis of the `print_solution` error path -/

theorem cellFold (cell : Nat) :
    ∀ (s : List Nat) (f e : Bool),
      ((s.foldl (cellStep cell) (f, e)).2 = true ↔
        (e = true ∨
          2 ≤ s.countP (fun m => m &&& (1 <<< cell) != 0) + (if f = true then 1 else 0))) := by
  intro s
  induction s with
  | nil =>
    intro f e
    show ((f, e).2 = true ↔ _)
    rw [List.countP_nil]
    cases f <;> cases e <;> simp
  | cons m ms ih =>
    intro f e
    rw [List.foldl_cons, List.countP_cons]
    by_cases hm : m &&& (1 <<< cell) ≠ 0
    · have hb : (m &&& (1 <<< cell) != 0) = true := by simpa [bne_iff_ne] using hm
      rw [hb]
      cases f
      · rw [show cellStep cell (false, e) m = (true, e) from by simp [cellStep, hm]]
        rw [ih true e]
        cases e <;> simp
      · rw [show cellStep cell (true, e) m = (true, true) from by simp [cellStep, hm]]
        rw [ih true true]
        cases e <;> simp
    · have hb : (m &&& (1 <<< cell) != 0) = false := by
        simp only [bne_eq_false_iff_eq]
        omega
      rw [hb]
      rw [show cellStep cell (f, e) m = (f, e) from by simp [cellStep, hm]]
      rw [ih f e]
      cases f <;> cases e <;> simp

theorem cellError_iff (s : List Nat) (cell : Nat) :
    cellError s cell = true ↔ 2 ≤ s.countP (fun m => m &&& (1 <<< cell) != 0) := by
  unfold cellError
  rw [cellFold]
  simp

theorem testBit_of_and_shift {x c : Nat} (h : x &&& (1 <<< c) ≠ 0) :
    x.testBit c = true := by
  by_contra hf
  apply h
  have h1 : (1 : Nat) <<< c = 2 ^ c := by rw [Nat.shiftLeft_eq, one_mul]
  rw [Bool.not_eq_true] at hf
  rw [h1, Nat.and_two_pow, hf]
  simp

theorem and_ne_zero_of_common_bit {a b c : Nat} (ha : a &&& (1 <<< c) ≠ 0)
    (hb : b &&& (1 <<< c) ≠ 0) : a &&& b ≠ 0 := by
  intro h0
  have hz := congrArg (fun n => n.testBit c) h0
  simp only [Nat.testBit_and, Nat.zero_testBit, testBit_of_and_shift ha,
    testBit_of_and_shift hb] at hz
  simp at hz

theorem countP_cover_le_one {s : List Nat}
    (hpw : List.Pairwise (fun a b => a &&& b = 0) s) (cell : Nat) :
    s.countP (fun m => m &&& (1 <<< cell) != 0) ≤ 1 := by
  induction s with
  | nil => simp [List.countP_nil]
  | cons a t ih =>
    rw [List.pairwise_cons] at hpw
    rw [List.countP_cons]
    by_cases ha : a &&& (1 <<< cell) ≠ 0
    · have hz : t.countP (fun m => m &&& (1 <<< cell) != 0) = 0 := by
        rw [List.countP_eq_zero]
        intro m hm hmc
        rw [bne_iff_ne] at hmc
        exact and_ne_zero_of_common_bit ha hmc (hpw.1 m hm)
      have hba : (a &&& (1 <<< cell) != 0) = true := by simpa [bne_iff_ne] using ha
      rw [hz, hba]
      simp
    · have hba : (a &&& (1 <<< cell) != 0) = false := by
        simp only [bne_eq_false_iff_eq]
        omega
      rw [hba]
      have := ih hpw.2
      simp
      omega

theorem solutionError_false_of_pairwise {s : List Nat}
    (hpw : List.Pairwise (fun a b => a &&& b = 0) s) : solutionError s = false := by
  unfold solutionError
  rw [List.any_eq_false]
  intro y _
  rw [Bool.not_eq_true, List.any_eq_false]
  intro x _
  rw [Bool.not_eq_true, Bool.eq_false_iff]
  intro hc
  have h2 := (cellError_iff s (x + W * y)).mp hc
  have h1 := countP_cover_le_one hpw (x + W * y)
  omega

theorem solutionError_iff (s : List Nat) :
    solutionError s = true ↔
      ∃ c, c < 28 ∧ 2 ≤ s.countP (fun m => m &&& (1 <<< c) != 0) := by
  have hW : W = 4 := rfl
  have hH : H = 7 := rfl
  unfold solutionError
  rw [List.any_eq_true]
  constructor
  · rintro ⟨y, hy, hx⟩
    rw [List.any_eq_true] at hx
    obtain ⟨x, hx2, hcell⟩ := hx
    rw [List.mem_range] at hy hx2
    refine ⟨x + W * y, by rw [hW] at hx2 ⊢; rw [hH] at hy; omega, ?_⟩
    exact (cellError_iff s (x + W * y)).mp hcell
  · rintro ⟨c, hc, h2⟩
    refine ⟨c / 4, ?_, ?_⟩
    · rw [List.mem_range, hH]; omega
    · rw [List.any_eq_true]
      refine ⟨c % 4, by rw [List.mem_range, hW]; omega, ?_⟩
      have hcc : c % 4 + W * (c / 4) = c := by rw [hW]; omega
      rw [hcc, cellError_iff]
      exact h2

/-! ### The generation trace for the mirror-step properties -/

/-- Row `r` of a mask: the `W` bits starting at bit `W*r`. -/
def rowOf (m r : Nat) : Nat := (m >>> (W * r)) &&& horiz_mask

/-- The states of the generation loop for one piece at the start of each of
the 8 `k` iterations (4 rotations, each before and after mirroring). -/
def genTrace (pd : piece_def) : List GenState :=
  [{ os := [], mask := pieceMask pd.defStr pd.w pd.h, w := pd.w, h := pd.h }].flatMap
    (fun s0 =>
      [s0, kStep s0, jStep s0, kStep (jStep s0), jStep (jStep s0),
        kStep (jStep (jStep s0)), jStep (jStep (jStep s0)),
        kStep (jStep (jStep (jStep s0)))])

/-! ### Piece identity of placement masks (for the exactly-once property) -/

/-- Whether a mask is one of the placements `recurse` can build from piece
`p`'s generated orientations. -/
def isPlacementOfB (m p : Nat) : Bool :=
  (pieces_available.getD p defaultPO).orients.any
    (fun o => (offsets o).any (fun sh => m == placeMask o.mask sh))

/-- Whether a reported solution uses each of the 7 pieces exactly once: for
every piece index there is exactly one depth whose recorded placement is a
placement of that piece. -/
def usesOnceB (s : List Nat) : Bool :=
  (List.range NUM_PIECES).all
    (fun p => ((List.range NUM_PIECES).filter (fun d => isPlacementOfB (s.getD d 0) p)).length == 1)

/-! ### Concrete corrupted pool state reached by the search (for the pool
bookkeeping defect) -/

/-- The pool as the search passes it down after choosing slot 2 at depth 0 and
slot 3 at depth 1: both freed slots were overwritten with copies of slot 0. -/
def availAfter2 : Avail :=
  (pieces_available.set 2 (pieces_available.getD 0 defaultPO)).set 3
    ((pieces_available.set 2 (pieces_available.getD 0 defaultPO)).getD 0 defaultPO)

/-! ### Witness configuration: a valid call state at depth 6 from which the
last piece completes the board (slot 6 of the pool holds a copy of the
straight piece; the first six placements are five squares and a square) -/

/-- A pool in which slot 6 holds piece 0's orientation set. -/
def availW : Avail := pieces_available.set 6 (pieces_available.getD 0 defaultPO)

/-- Six square placements tiling rows 0..5 of the board. -/
def solW : List Nat := [51, 13056, 3342336, 204, 52224, 13369344]

theorem callInvW : CallInv 6 16777215 availW solW :=
  ⟨by decide, by decide, by decide, by decide, by decide, by decide⟩

theorem memW :
    [51, 13056, 3342336, 204, 52224, 13369344, 251658240] ∈
      (recurse 1 6 16777215 availW solW).1 := by decide

/-- The generation state used as the concrete mirror-step witness: piece 2
just after its first mirroring. -/
def c8s : GenState :=
  (genTrace (piece_definition.getD 2 ⟨[], 0, 0⟩)).getD 1 ⟨[], 0, 0, 0⟩

/-! ### The claims -/

/-- C1: for every solution reported by the search (every call to
`found_solution` at depth 7) from any call state satisfying the call
invariant — in particular from `main`'s initial call — the bitwise OR of the
7 recorded placement masks equals `0x0FFFFFFF`: all 28 board bits set and
bits 28..31 clear. -/
theorem c1_union_full :
    ∀ (fuel iter state : Nat) (avail : Avail) (sol : List Nat),
      CallInv iter state avail sol →
      ∀ s ∈ (recurse fuel iter state avail sol).1, orAll s = 268435455 := by
  intro fuel iter state avail sol h s hs
  exact (goodSol_all fuel iter state avail sol h s hs).2.2.2

/-- C1 witness: the completed solution reported from the depth-6 witness
state ORs to the full board. -/
theorem c1_union_full_witness :
    orAll [51, 13056, 3342336, 204, 52224, 13369344, 251658240] = 268435455 :=
  c1_union_full 1 6 16777215 availW solW callInvW _ memW

/-- C2: for every reported solution and every pair of distinct depths
`i ≠ j` below 7, the recorded placement masks are disjoint:
`solution[i] & solution[j] == 0`. -/
theorem c2_pairwise_disjoint :
    ∀ (fuel iter state : Nat) (avail : Avail) (sol : List Nat),
      CallInv iter state avail sol →
      ∀ s ∈ (recurse fuel iter state avail sol).1,
      ∀ i j : Nat, i < NUM_PIECES → j < NUM_PIECES → i ≠ j →
        s.getD i 0 &&& s.getD j 0 = 0 := by
  intro fuel iter state avail sol h s hs i j hi hj hij
  obtain ⟨hlen, hpw, -, -⟩ := goodSol_all fuel iter state avail sol h s hs
  have hpg := List.pairwise_iff_getElem.mp hpw
  rcases Nat.lt_trichotomy i j with hlt | heq | hgt
  · rw [List.getD_eq_getElem s 0 (by omega), List.getD_eq_getElem s 0 (by omega)]
    exact hpg i j (by omega) (by omega) hlt
  · exact absurd heq hij
  · rw [List.getD_eq_getElem s 0 (by omega), List.getD_eq_getElem s 0 (by omega)]
    rw [Nat.and_comm]
    exact hpg j i (by omega) (by omega) hgt

/-- C2 witness: two placements of the completed witness solution are
disjoint. -/
theorem c2_pairwise_disjoint_witness :
    List.getD [51, 13056, 3342336, 204, 52224, 13369344, 251658240] 0 0 &&&
      List.getD [51, 13056, 3342336, 204, 52224, 13369344, 251658240] 6 0 = 0 :=
  c2_pairwise_disjoint 1 6 16777215 availW solW callInvW _ memW 0 6
    (by decide) (by decide) (by decide)

/-- C3: every reported solution of the run uses each of the 7 pieces exactly
once.  The run reports no solution at all (`solutions_empty`), so the
property holds of the whole (empty) report list. -/
theorem c3_each_piece_once : searchSolutions.all usesOnceB = true := by
  rw [solutions_empty]
  rfl

/-- C4 evidence (code defect): after the reachable choices slot 2 at depth 0
and slot 3 at depth 1 (placements `0x63` and `0x3600`), the pool offered at
depth 2 no longer holds the not-yet-placed piece 1 (the square) at all and
holds piece 0 (the straight piece) twice: `recurse` overwrites a freed slot
with `pieces_available[0]` instead of `pieces_available[iter]`. -/
theorem c4_pool_corruption :
    Reach 2 13923 availAfter2 [99, 13824]
      [pieces_available.getD 2 defaultPO, pieces_available.getD 3 defaultPO] ∧
    pieces_available.getD 1 defaultPO ∉
      [pieces_available.getD 2 defaultPO, pieces_available.getD 3 defaultPO] ∧
    (availAfter2.drop 2).count (pieces_available.getD 1 defaultPO) = 0 ∧
    (availAfter2.drop 2).count (pieces_available.getD 0 defaultPO) = 2 := by
  refine ⟨?_, by decide, by decide, by decide⟩
  have s1 := Reach.step 2 ⟨99, 3, 2⟩ 0 Reach.init (by decide) (by decide) (by decide)
    (by decide) (by decide)
  have h1 : Reach 1 99 (pieces_available.set 2 (pieces_available.getD 0 defaultPO)) [99]
      [pieces_available.getD 2 defaultPO] :=
    reach_congr s1 (by decide) (by decide) (by decide) (by decide) (by decide)
  have s2 := Reach.step 3 ⟨54, 3, 2⟩ 8 h1 (by decide) (by decide) (by decide)
    (by decide) (by decide)
  exact reach_congr s2 (by decide) (by decide) (by decide) (by decide) (by decide)

/-- C5: the pool is restored bit for bit: within one slot iteration, writing
the saved copy back recreates exactly the pool from the moment the slot was
chosen, and a whole `recurse` call returns the pool it received. -/
theorem c5_pool_restored :
    ∀ (fuel iter state : Nat) (sol : List Nat) (avail : Avail) (i : Nat),
      ((orientLoop (fun it st av so => recurse fuel it st av so) iter state sol
          (avail.set i (avail.getD 0 defaultPO)) (avail.getD i defaultPO).orients).2).set i
        (avail.getD i defaultPO) = avail ∧
      (recurse fuel iter state avail sol).2 = avail :=
  fun fuel iter state sol avail i =>
    ⟨slot_restores fuel iter state sol avail i, recurse_snd fuel iter state avail sol⟩

/-- C6: no reported placement mask has a bit at position 28 or above, and the
running occupancy along every search branch (every reached call state) has
only bits in `[0, 28)` set; with the cell encoding `bit = x + 4*y`, a bit
below 28 is exactly a cell with `x < 4` and `y < 7`. -/
theorem c6_placement_bounds :
    (∀ (fuel iter state : Nat) (avail : Avail) (sol : List Nat),
      CallInv iter state avail sol →
      ∀ s ∈ (recurse fuel iter state avail sol).1, ∀ m ∈ s, m < 2 ^ 28) ∧
    (∀ (iter state : Nat) (avail : Avail) (sol : List Nat)
      (placed : List piece_orientations),
      Reach iter state avail sol placed → state < 2 ^ 28) := by
  constructor
  · intro fuel iter state avail sol h s hs m hm
    obtain ⟨-, -, hmem, -⟩ := goodSol_all fuel iter state avail sol h s hs
    exact (placement_facts m (hmem m hm)).2
  · intro iter state avail sol placed h
    exact reach_state_lt h

/-- C7: each of the 7 pieces generates between 1 and 8 orientations; the 2x2
square (definition index 1) generates exactly 1 and the 1x4 straight piece
(definition index 0) exactly 2. -/
theorem c7_orientation_counts :
    (∀ i < NUM_PIECES,
      1 ≤ (pieces_available.getD i defaultPO).orients.length ∧
      (pieces_available.getD i defaultPO).orients.length ≤ 8) ∧
    (pieces_available.getD 1 defaultPO).orients.length = 1 ∧
    (pieces_available.getD 0 defaultPO).orients.length = 2 := by decide

/-- C8: at every one of the 8 mirror iterations of every piece's generation,
the mirror step swaps the bit content of row `r` and row `h-1-r` for
`r < h` and leaves the other rows unchanged; applying it twice restores the
original mask, so the 90-degree rotation computed at the end of each
rotation iteration (`jStep`) is applied to the unmirrored mask of that
iteration. -/
theorem c8_mirror_step :
    ∀ pd ∈ piece_definition, ∀ s ∈ genTrace pd,
      (∀ r < s.h, rowOf (mirrorPiece s.h s.mask) r = rowOf s.mask ((s.h - 1) - r)) ∧
      (∀ r < 8, s.h ≤ r → rowOf (mirrorPiece s.h s.mask) r = rowOf s.mask r) ∧
      mirrorPiece s.h (mirrorPiece s.h s.mask) = s.mask ∧
      (kStep (kStep s)).mask = s.mask ∧
      (jStep s).mask = rotatePiece s.w s.h s.mask := by decide

/-- C8 witness: the mirror-step properties at a concrete generation state
(piece 2, just after its first mirroring). -/
theorem c8_mirror_step_witness :
    (∀ r < c8s.h, rowOf (mirrorPiece c8s.h c8s.mask) r = rowOf c8s.mask ((c8s.h - 1) - r)) ∧
    (∀ r < 8, c8s.h ≤ r → rowOf (mirrorPiece c8s.h c8s.mask) r = rowOf c8s.mask r) ∧
    mirrorPiece c8s.h (mirrorPiece c8s.h c8s.mask) = c8s.mask ∧
    (kStep (kStep c8s)).mask = c8s.mask ∧
    (jStep c8s).mask = rotatePiece c8s.w c8s.h c8s.mask :=
  c8_mirror_step (piece_definition.getD 2 ⟨[], 0, 0⟩) (by decide) c8s (by decide)

/-- C9 counterexample: the full search reports no solution, so the claim
that `found_solution` is called at least once is false. -/
theorem c9_no_solution_exists : searchSolutions.length = 0 := by
  rw [solutions_empty]
  rfl

/-- C9 amended: running the full search on the 7 fixed pieces and the 4x7
board reports no solution: `found_solution` is never called.  Every branch
places the T piece exactly once, a T placement covers an odd number of black
cells of the checkerboard colouring while every other placement covers two,
and the board has 14. -/
theorem c9_reports_none : searchSolutions = [] := solutions_empty

/-- C10: the process exits with code 0 on normal completion; the only
non-zero-exit path of `print_solution` is taken exactly when some board cell
is covered by two placements of a reported solution, and that path is
unreachable because every reported solution has pairwise disjoint
placements. -/
theorem c10_exit_code :
    mainExitCode = 0 ∧
    (∀ s : List Nat, solutionError s = true ↔
      ∃ c, c < 28 ∧ 2 ≤ s.countP (fun m => m &&& (1 <<< c) != 0)) ∧
    (∀ (fuel iter state : Nat) (avail : Avail) (sol : List Nat),
      CallInv iter state avail sol →
      ∀ s ∈ (recurse fuel iter state avail sol).1, solutionError s = false) := by
  refine ⟨?_, solutionError_iff, ?_⟩
  · unfold mainExitCode
    rw [solutions_empty]
    rfl
  · intro fuel iter state avail sol h s hs
    obtain ⟨-, hpw, -, -⟩ := goodSol_all fuel iter state avail sol h s hs
    exact solutionError_false_of_pairwise hpw
